import Mathlib

/-
Verification of the NCSN (noise-conditional score network) sampling and loss
code.  The numerical functions of `generate.py` and `losses/losses.py` are
embedded over the real numbers: an image is a real-valued tensor indexed by
height, width and channel; a batch is a list of images; the score model is an
opaque callable; every random draw of the program (the Gaussian noise `z_t` of
a Langevin step, the projection vector `v` of the sliced loss) is passed
explicitly as a parameter, which makes each function a deterministic function
of its inputs plus the random draws, exactly as the program is a deterministic
function of its inputs plus the RNG stream.
-/

namespace NCSN

/-- An image tensor of shape (H, W, C) with real entries. -/
abbrev Img (H W C : ℕ) : Type := Fin H → Fin W → Fin C → ℝ

/-- A batch of images: a list of rows, the first tensor axis. -/
abbrev Batch (H W C : ℕ) : Type := List (Img H W C)

/-- The score model interface: an opaque callable taking a batch and the
noise-level index tensor and returning a batch (contractually of the same
shape). -/
abbrev ScoreModel (H W C : ℕ) : Type := Batch H W C → List ℤ → Batch H W C

/-- The all-zero image, used as the `getD` default. -/
def imgDefault {H W C : ℕ} : Img H W C := fun _ _ _ => 0

/-- Elementwise combination of three lists of equal length (tensors of equal
leading dimension); on mismatched lengths it truncates, mismatch never arises
under the shape contract. -/
def zipWith3 {α β γ δ : Type} (f : α → β → γ → δ)
    (as : List α) (bs : List β) (cs : List γ) : List δ :=
  List.zipWith (fun p c => f p.1 p.2 c) (as.zip bs) cs

/-- `sample_one_step` of generate.py: with the Gaussian draw `z_t` made an
explicit argument,
`score = model([x, idx_sigmas]); noise = sqrt(alpha_i * 2) * z_t;
 return x + alpha_i * score + noise`, elementwise over the batch. -/
noncomputable def sample_one_step {H W C : ℕ} (model : ScoreModel H W C)
    (x : Batch H W C) (idx_sigmas : List ℤ) (alpha_i : ℝ) (z_t : Batch H W C) :
    Batch H W C :=
  zipWith3
    (fun xi si zi => fun h w c =>
      xi h w c + alpha_i * si h w c + Real.sqrt (alpha_i * 2) * zi h w c)
    x (model x idx_sigmas) z_t

/-- The inner `for t in range(T)` loop of the samplers of generate.py:
`T` successive Langevin steps at one noise level, step `t` consuming the
fresh Gaussian draw `z t`. -/
noncomputable def langevin_T_steps {H W C : ℕ} (model : ScoreModel H W C)
    (idx_sigmas : List ℤ) (alpha_i : ℝ) (z : ℕ → Batch H W C) :
    ℕ → Batch H W C → Batch H W C
  | 0, x => x
  | t + 1, x =>
      sample_one_step model (langevin_T_steps model idx_sigmas alpha_i z t x)
        idx_sigmas alpha_i (z t)

/-- The `for i, sigma_i in enumerate(sigmas)` loop shared by `sample_and_save`,
`sample_many` and `sample_many_and_save` of generate.py: for each enumerated
noise level, `alpha_i = eps * (sigma_i / sigmas[-1]) ** 2`,
`idx_sigmas = tf.ones(batch_rows, dtype=tf.int32) * i`, then `T` Langevin
steps, the resulting state feeding the next level.  `z i t` is the Gaussian
draw of step `t` of level `i`. -/
noncomputable def sample_levels {H W C : ℕ} (model : ScoreModel H W C)
    (eps : ℝ) (T : ℕ) (sigmaLast : ℝ) (z : ℕ → ℕ → Batch H W C) :
    List (ℕ × ℝ) → Batch H W C → Batch H W C
  | [], x => x
  | (i, sigma_i) :: rest, x =>
      sample_levels model eps T sigmaLast z rest
        (langevin_T_steps model (List.replicate x.length (i : ℤ))
          (eps * (sigma_i / sigmaLast) ^ 2) (z i) T x)

/-- The sampling core of `sample_and_save` of generate.py (lines 165-169):
the level loop over `enumerate(sigmas)` with `sigmas[-1]` as the denominator
sigma, run from the initial draw `x`. -/
noncomputable def sample_and_save_loop {H W C : ℕ} (model : ScoreModel H W C)
    (sigmas : List ℝ) (eps : ℝ) (T : ℕ) (z : ℕ → ℕ → Batch H W C)
    (x : Batch H W C) : Batch H W C :=
  sample_levels model eps T (sigmas.getLastD 0) z sigmas.enum x

/-- `tf.data.Dataset.from_tensor_slices(x).batch(batch_size)` of generate.py:
split a list into consecutive chunks of size `bs`, the last chunk possibly
smaller. -/
def chunks {α : Type} (bs : ℕ) : List α → List (List α)
  | [] => []
  | a :: l => List.take bs (a :: l) :: chunks bs (List.drop (bs - 1) l)
termination_by l => l.length
decreasing_by
  simp only [List.length_drop, List.length_cons]
  omega

/-- `sample_many` of generate.py: clamp the batch size to
`min(batch_size, n_images)`, split the initial draw `x` into sub-batches, run
the full level loop on each sub-batch, and concatenate the results.
`z j i t` is the Gaussian draw of step `t` of level `i` of sub-batch `j`. -/
noncomputable def sample_many {H W C : ℕ} (model : ScoreModel H W C)
    (sigmas : List ℝ) (batch_size : ℕ) (eps : ℝ) (T : ℕ)
    (z : ℕ → ℕ → ℕ → Batch H W C) (x : Batch H W C) : Batch H W C :=
  ((chunks (min batch_size x.length) x).enum.map
    (fun p => sample_levels model eps T (sigmas.getLastD 0) (z p.1)
      sigmas.enum p.2)).flatten

/-- `clamped` of generate.py: `tf.clip_by_value(x, 0, 1.0)`, elementwise. -/
noncomputable def clamped (v : ℝ) : ℝ := min (max v 0) 1

/-- `_preprocess_image_to_save` of generate.py, elementwise:
`x = x * 255; x = x + 0.5; x = tf.clip_by_value(x, 0, 255)`. -/
noncomputable def preprocess_image_to_save (v : ℝ) : ℝ :=
  min (max (v * 255 + 0.5) 0) 255

/-- `tf.linspace(start, stop, num)` on scalars: `num` evenly spaced values
from `start` to `stop` inclusive; for `num = 1` the single value `start`. -/
noncomputable def linspace (start stop : ℝ) (num : ℕ) : List ℝ :=
  if num = 1 then [start]
  else (List.range num).map fun (i : ℕ) =>
    start + (i : ℝ) * (stop - start) / ((num : ℝ) - 1)

/-- `sigma_levels` of generate.py:
`tf.math.exp(tf.linspace(tf.math.log(sigma_high), tf.math.log(sigma_low), num_L))`. -/
noncomputable def sigma_levels (sigma_high sigma_low : ℝ) (num_L : ℕ) : List ℝ :=
  (linspace (Real.log sigma_high) (Real.log sigma_low) num_L).map Real.exp

/-- `loss_per_batch` of losses/losses.py, with tensors of shape (B, H, W, C)
and `sigmas` broadcast as one scalar per example:
`l = tf.norm(sigmas * score + (x_perturbed - x) / sigmas, axis=(1, 2))`
(Frobenius norm over height and width, leaving shape (B, C)), then
`l = tf.norm(l, axis=-1)` (norm over channels), `l = tf.square(l)`, and
`return 0.5 * tf.reduce_mean(l) / num_L`. -/
noncomputable def loss_per_batch {B H W C : ℕ} (num_L : ℕ)
    (score x_perturbed x : Fin B → Img H W C) (sigmas : Fin B → ℝ) : ℝ :=
  let resid : Fin B → Img H W C := fun b h w c =>
    sigmas b * score b h w c + (x_perturbed b h w c - x b h w c) / sigmas b
  let l_hw : Fin B → Fin C → ℝ := fun b c =>
    Real.sqrt (∑ h, ∑ w, resid b h w c ^ 2)
  let l_c : Fin B → ℝ := fun b => Real.sqrt (∑ c, l_hw b c ^ 2)
  0.5 * ((∑ b, l_c b ^ 2) / (B : ℝ)) / (num_L : ℝ)

/-- `ssm_loss` of losses/losses.py over square matrices (the only shapes on
which `tf.transpose(v) * data_grads` is well-formed elementwise), with the
random projection `v` made an explicit argument:
`loss = tf.transpose(v) * data_grads * v + 0.5 * tf.square(tf.transpose(v) * scores)`
with `*` elementwise, then `loss = tf.reduce_mean(loss)`. -/
noncomputable def ssm_loss {n : ℕ} (scores data_grads v : Fin n → Fin n → ℝ) : ℝ :=
  (∑ i, ∑ j, (v j i * data_grads i j * v i j + 0.5 * (v j i * scores i j) ^ 2))
    / ((n : ℝ) * (n : ℝ))

/-- The loss the claim describes for `ssm_loss`: the sliced score-matching
objective with dot-product projections along `v`, per example
`v·data_grads·v + 0.5·(v·scores)²`, averaged over examples. -/
noncomputable def ssm_loss_dot {n : ℕ} (scores data_grads v : Fin n → Fin n → ℝ) : ℝ :=
  (∑ i, ((∑ j, v i j * data_grads i j * v i j)
    + 0.5 * (∑ j, v i j * scores i j) ^ 2)) / (n : ℝ)

/-- A concrete model instance for witnesses: the identity on the batch. -/
def idModel : ScoreModel 1 1 1 := fun b _ => b

/-- A concrete three-image batch for witnesses. -/
def batch3 : Batch 1 1 1 := [imgDefault, imgDefault, imgDefault]

/-- Concrete noise draws for witnesses, shaped like the sub-batches of
`batch3` under batch size 2. -/
def zChunks3 : ℕ → ℕ → ℕ → Batch 1 1 1 :=
  fun j _ _ => (chunks (min 2 batch3.length) batch3).getD j []

/-- The annealed sampler as the specification words it: for each noise level
`i = 0 .. L-1` in the schedule's order, a step size
`eps * (sigma_i / sigma_last)²` built from the last (smallest) sigma, a
constant index vector of value `i` whose length is the current batch's size,
and `T` chained Langevin steps whose final state warm-starts level `i + 1`. -/
noncomputable def annealed_spec {H W C : ℕ} (model : ScoreModel H W C)
    (eps : ℝ) (T : ℕ) (sigmas : List ℝ) (z : ℕ → ℕ → Batch H W C)
    (x : Batch H W C) : Batch H W C :=
  (List.range sigmas.length).foldl
    (fun acc i =>
      (List.range T).foldl
        (fun b t => sample_one_step model b (List.replicate acc.length (Int.ofNat i))
          (eps * (sigmas.getD i 0 / sigmas.getLastD 0) ^ 2) (z i t))
        acc)
    x

theorem length_zipWith3 {α β γ δ : Type} (f : α → β → γ → δ)
    (as : List α) (bs : List β) (cs : List γ) :
    (zipWith3 f as bs cs).length = min (min as.length bs.length) cs.length := by
  simp [zipWith3]

theorem getD_zipWith3 {α β γ δ : Type} (f : α → β → γ → δ)
    (as : List α) (bs : List β) (cs : List γ) (i : ℕ)
    (d : δ) (da : α) (db : β) (dc : γ)
    (ha : i < as.length) (hb : i < bs.length) (hc : i < cs.length) :
    (zipWith3 f as bs cs).getD i d = f (as.getD i da) (bs.getD i db) (cs.getD i dc) := by
  have hlen : i < (zipWith3 f as bs cs).length := by
    rw [length_zipWith3]; omega
  rw [List.getD_eq_getElem _ _ hlen, List.getD_eq_getElem _ _ ha,
    List.getD_eq_getElem _ _ hb, List.getD_eq_getElem _ _ hc]
  simp [zipWith3]

/-- Claim C1: one call of `sample_one_step` returns, elementwise at every row
`b` and pixel `(h, w, c)`, exactly
`x + alpha_i * score + sqrt(2 * alpha_i) * z` where `score = model(x, idx_sigmas)`
and `z` is the Gaussian draw of the call. -/
theorem C1_sample_one_step_update {H W C : ℕ} (model : ScoreModel H W C)
    (x : Batch H W C) (idx_sigmas : List ℤ) (alpha_i : ℝ) (z_t : Batch H W C)
    (hs : (model x idx_sigmas).length = x.length) (hz : z_t.length = x.length)
    (b : ℕ) (hb : b < x.length) (h : Fin H) (w : Fin W) (c : Fin C) :
    (sample_one_step model x idx_sigmas alpha_i z_t).getD b imgDefault h w c
      = x.getD b imgDefault h w c
        + alpha_i * (model x idx_sigmas).getD b imgDefault h w c
        + Real.sqrt (2 * alpha_i) * z_t.getD b imgDefault h w c := by
  unfold sample_one_step
  rw [getD_zipWith3 _ x (model x idx_sigmas) z_t b imgDefault imgDefault
    imgDefault imgDefault hb
    (by omega : b < (model x idx_sigmas).length) (by omega : b < z_t.length)]
  rw [mul_comm alpha_i 2]

/-- Witness for C1 at a concrete input: one image of shape 1×1×1, the identity
model, `alpha_i = 1`. -/
theorem C1_sample_one_step_update_witness :
    (sample_one_step (fun b _ => b : ScoreModel 1 1 1) [imgDefault] [] 1
        [imgDefault]).getD 0 imgDefault 0 0 0
      = ([imgDefault] : Batch 1 1 1).getD 0 imgDefault 0 0 0
        + 1 * ((fun b _ => b : ScoreModel 1 1 1) [imgDefault] []).getD 0 imgDefault 0 0 0
        + Real.sqrt (2 * 1) * ([imgDefault] : Batch 1 1 1).getD 0 imgDefault 0 0 0 :=
  C1_sample_one_step_update (fun b _ => b) [imgDefault] [] 1 [imgDefault]
    rfl rfl 0 (by simp) 0 0 0

theorem langevin_T_steps_eq_foldl {H W C : ℕ} (model : ScoreModel H W C)
    (idx : List ℤ) (a : ℝ) (z : ℕ → Batch H W C) (T : ℕ) (x : Batch H W C) :
    langevin_T_steps model idx a z T x
      = (List.range T).foldl (fun b t => sample_one_step model b idx a (z t)) x := by
  induction T with
  | zero => rfl
  | succ t ih =>
      rw [List.range_succ, List.foldl_append]
      simp [langevin_T_steps, ih]

theorem sample_levels_enumFrom {H W C : ℕ} (model : ScoreModel H W C)
    (eps : ℝ) (T : ℕ) (sigmaLast : ℝ) (z : ℕ → ℕ → Batch H W C) :
    ∀ (l : List ℝ) (k : ℕ) (x : Batch H W C),
      sample_levels model eps T sigmaLast z (List.enumFrom k l) x
        = (List.range l.length).foldl
            (fun acc j =>
              langevin_T_steps model (List.replicate acc.length (Int.ofNat (k + j)))
                (eps * (l.getD j 0 / sigmaLast) ^ 2) (z (k + j)) T acc) x
  | [], k, x => rfl
  | s :: rest, k, x => by
      have hx' :
          sample_levels model eps T sigmaLast z (List.enumFrom k (s :: rest)) x
            = sample_levels model eps T sigmaLast z (List.enumFrom (k + 1) rest)
                (langevin_T_steps model (List.replicate x.length (Int.ofNat k))
                  (eps * (s / sigmaLast) ^ 2) (z k) T x) := rfl
      rw [hx', sample_levels_enumFrom model eps T sigmaLast z rest (k + 1) _]
      rw [List.length_cons, List.range_succ_eq_map, List.foldl_cons, List.foldl_map]
      congr 1
      funext acc j
      have hkj : k + Nat.succ j = k + 1 + j := by omega
      simp [hkj]

theorem levels_eq_annealed_spec {H W C : ℕ} (model : ScoreModel H W C)
    (sigmas : List ℝ) (eps : ℝ) (T : ℕ) (z : ℕ → ℕ → Batch H W C)
    (x : Batch H W C) :
    sample_levels model eps T (sigmas.getLastD 0) z sigmas.enum x
      = annealed_spec model eps T sigmas z x := by
  unfold annealed_spec
  rw [show sigmas.enum = List.enumFrom 0 sigmas from rfl]
  rw [sample_levels_enumFrom model eps T (sigmas.getLastD 0) z sigmas 0 x]
  congr 1
  funext acc i
  rw [langevin_T_steps_eq_foldl]
  simp

/-- Claim C2: the level loop of the sampler equals the specification's
annealed iteration: levels visited in the schedule's order, step size
`eps * (sigma_i / sigma_last)²` built from the last sigma, index tensor a
constant vector of value `i` whose length is the current batch's size, and the
state left by the `T` steps of level `i` warm-starting level `i + 1`. -/
theorem C2_annealed_level_structure {H W C : ℕ} (model : ScoreModel H W C)
    (sigmas : List ℝ) (eps : ℝ) (T : ℕ) (z : ℕ → ℕ → Batch H W C)
    (x : Batch H W C) :
    sample_and_save_loop model sigmas eps T z x
      = annealed_spec model eps T sigmas z x :=
  levels_eq_annealed_spec model sigmas eps T z x

/-- Claim C9: over a one-element schedule `[sigma]` with one step per level,
the sampling loop reduces to exactly one call of `sample_one_step` on the
initial state, with level index 0 and step size `alpha_0 = eps`
(`sigma_0 / sigma_0 = 1`). -/
theorem C9_single_level_single_step {H W C : ℕ} (model : ScoreModel H W C)
    (sigma eps : ℝ) (z : ℕ → ℕ → Batch H W C) (x : Batch H W C)
    (hsig : sigma ≠ 0) :
    sample_and_save_loop model [sigma] eps 1 z x
      = sample_one_step model x (List.replicate x.length 0) eps (z 0 0) := by
  unfold sample_and_save_loop
  show langevin_T_steps model (List.replicate x.length (Int.ofNat 0))
      (eps * (sigma / ([sigma] : List ℝ).getLastD 0) ^ 2) (z 0) 1 x = _
  rw [show ([sigma] : List ℝ).getLastD 0 = sigma from rfl, div_self hsig]
  norm_num [langevin_T_steps]

/-- Witness for C9 at a concrete input: schedule `[1]`, `eps = 2`, identity
model, a single 1×1×1 image. -/
theorem C9_single_level_single_step_witness :
    (1 : ℝ) ≠ 0 ∧
      sample_and_save_loop (fun b _ => b : ScoreModel 1 1 1) [1] 2 1
          (fun _ _ => [imgDefault]) [imgDefault]
        = sample_one_step (fun b _ => b) [imgDefault] (List.replicate 1 0) 2
            [imgDefault] :=
  ⟨by norm_num,
    C9_single_level_single_step (fun b _ => b) 1 2 (fun _ _ => [imgDefault])
      [imgDefault] (by norm_num)⟩

theorem chunks_nil {α : Type} (bs : ℕ) : chunks (α := α) bs [] = [] := by
  rw [chunks.eq_def]

theorem chunks_cons {α : Type} (bs : ℕ) (a : α) (l : List α) :
    chunks bs (a :: l) = List.take bs (a :: l) :: chunks bs (List.drop (bs - 1) l) := by
  rw [chunks.eq_def]

theorem chunks_flatten {α : Type} (bs : ℕ) (hbs : 1 ≤ bs) : ∀ (l : List α),
    (chunks bs l).flatten = l := by
  refine chunks.induct bs (fun l => (chunks bs l).flatten = l) ?_ ?_
  · show (chunks bs ([] : List α)).flatten = ([] : List α)
    rw [chunks_nil]; rfl
  · intro a l ih
    show (chunks bs (a :: l)).flatten = a :: l
    rw [chunks_cons, List.flatten_cons, ih]
    obtain ⟨m, rfl⟩ : ∃ m, bs = m + 1 := ⟨bs - 1, by omega⟩
    simp [List.take_succ_cons, List.take_append_drop]

theorem chunks_map_length {α : Type} (bs : ℕ) (hbs : 1 ≤ bs) : ∀ (l : List α),
    (chunks bs l).map List.length
      = List.replicate (l.length / bs) bs
        ++ (if l.length % bs = 0 then [] else [l.length % bs]) := by
  refine chunks.induct bs
    (fun l => (chunks bs l).map List.length
      = List.replicate (l.length / bs) bs
        ++ (if l.length % bs = 0 then [] else [l.length % bs])) ?_ ?_
  · simp [chunks_nil, Nat.zero_div, Nat.zero_mod]
  · intro a l ih
    show (chunks bs (a :: l)).map List.length = _
    rw [chunks_cons, List.map_cons, ih]
    simp only [List.length_take, List.length_cons, List.length_drop]
    rcases Nat.lt_or_ge l.length (bs - 1) with h | h
    · have h0 : l.length - (bs - 1) = 0 := by omega
      have hmin : min bs (l.length + 1) = l.length + 1 := by omega
      rw [h0, hmin]
      simp only [Nat.zero_div, Nat.zero_mod, List.replicate_zero, if_pos rfl,
        List.nil_append]
      rcases Nat.lt_or_ge (l.length + 1) bs with h2 | h2
      · rw [Nat.div_eq_of_lt h2, Nat.mod_eq_of_lt h2]
        simp
      · have heq : l.length + 1 = bs := by omega
        rw [heq, Nat.div_self (by omega), Nat.mod_self]
        simp
    · have hmin : min bs (l.length + 1) = bs := by omega
      have hlen : l.length - (bs - 1) = l.length + 1 - bs := by omega
      rw [hmin, hlen,
        show (l.length + 1) / bs = (l.length + 1 - bs) / bs + 1 from
          Nat.div_eq_sub_div (by omega) (by omega),
        show (l.length + 1) % bs = (l.length + 1 - bs) % bs from
          Nat.mod_eq_sub_mod (by omega),
        List.replicate_succ, List.cons_append]

theorem length_sample_one_step {H W C : ℕ} (model : ScoreModel H W C)
    (x : Batch H W C) (idx : List ℤ) (a : ℝ) (z : Batch H W C)
    (hs : (model x idx).length = x.length) (hz : z.length = x.length) :
    (sample_one_step model x idx a z).length = x.length := by
  unfold sample_one_step
  rw [length_zipWith3]
  omega

theorem length_langevin_T_steps {H W C : ℕ} (model : ScoreModel H W C)
    (idx : List ℤ) (a : ℝ) (z : ℕ → Batch H W C) (n : ℕ)
    (hm : ∀ b i, (model b i).length = b.length)
    (hz : ∀ t, (z t).length = n) (T : ℕ) (x : Batch H W C) (hx : x.length = n) :
    (langevin_T_steps model idx a z T x).length = n := by
  induction T with
  | zero => exact hx
  | succ T ih =>
      rw [show langevin_T_steps model idx a z (T + 1) x
          = sample_one_step model (langevin_T_steps model idx a z T x) idx a (z T)
        from rfl]
      rw [length_sample_one_step model _ idx a (z T) (hm _ idx) (by rw [hz, ih])]
      exact ih

theorem length_sample_levels {H W C : ℕ} (model : ScoreModel H W C)
    (eps : ℝ) (T : ℕ) (sigmaLast : ℝ) (z : ℕ → ℕ → Batch H W C) (n : ℕ)
    (hm : ∀ b i, (model b i).length = b.length)
    (hz : ∀ i t, (z i t).length = n) :
    ∀ (lst : List (ℕ × ℝ)) (x : Batch H W C), x.length = n →
      (sample_levels model eps T sigmaLast z lst x).length = n
  | [], _, hx => hx
  | (i, s) :: rest, x, hx => by
      rw [show sample_levels model eps T sigmaLast z ((i, s) :: rest) x
          = sample_levels model eps T sigmaLast z rest
              (langevin_T_steps model (List.replicate x.length (Int.ofNat i))
                (eps * (s / sigmaLast) ^ 2) (z i) T x) from rfl]
      exact length_sample_levels model eps T sigmaLast z n hm hz rest _
        (length_langevin_T_steps model _ _ (z i) n hm (hz i) T x hx)

theorem length_sample_chunks {H W C : ℕ} (model : ScoreModel H W C)
    (eps : ℝ) (T : ℕ) (sigmaLast : ℝ) (sigmaList : List (ℕ × ℝ))
    (z : ℕ → ℕ → ℕ → Batch H W C)
    (hm : ∀ b i, (model b i).length = b.length) :
    ∀ (L : List (Batch H W C)) (k : ℕ),
      (∀ j i t, (z (k + j) i t).length = (L.getD j []).length) →
      (((List.enumFrom k L).map
          (fun p => sample_levels model eps T sigmaLast (z p.1) sigmaList p.2)).flatten).length
        = L.flatten.length
  | [], _, _ => rfl
  | c :: rest, k, hz => by
      rw [show List.enumFrom k (c :: rest) = (k, c) :: List.enumFrom (k + 1) rest
          from rfl,
        List.map_cons, List.flatten_cons, List.length_append, List.flatten_cons,
        List.length_append]
      have h1 : (sample_levels model eps T sigmaLast (z k) sigmaList c).length
          = c.length :=
        length_sample_levels model eps T sigmaLast (z k) c.length hm
          (fun i t => by have := hz 0 i t; simpa using this) sigmaList c rfl
      rw [h1, length_sample_chunks model eps T sigmaLast sigmaList z hm rest (k + 1)
        (fun j i t => by have := hz (j + 1) i t
                         simpa [Nat.add_comm, Nat.add_assoc, Nat.add_left_comm] using this)]

/-- Claim C10: `sample_many` clamps the batch size to `min(batch_size,
n_images)`, splits the initial tensor into sub-batches of that size with a
possibly smaller final sub-batch when the size does not divide `n_images`,
runs each sub-batch through the annealed level loop (whose index tensor is
sized to the actual sub-batch), and the concatenation has exactly `n_images`
rows. -/
theorem C10_sub_batching {H W C : ℕ} (model : ScoreModel H W C)
    (sigmas : List ℝ) (batch_size : ℕ) (eps : ℝ) (T : ℕ)
    (z : ℕ → ℕ → ℕ → Batch H W C) (x : Batch H W C)
    (hn : 1 ≤ x.length) (hbs : 1 ≤ batch_size)
    (hm : ∀ b i, (model b i).length = b.length)
    (hz : ∀ j i t, (z j i t).length
      = ((chunks (min batch_size x.length) x).getD j []).length) :
    ((chunks (min batch_size x.length) x).map List.length
        = List.replicate (x.length / min batch_size x.length)
            (min batch_size x.length)
          ++ (if x.length % min batch_size x.length = 0 then []
              else [x.length % min batch_size x.length]))
    ∧ (sample_many model sigmas batch_size eps T z x).length = x.length
    ∧ sample_many model sigmas batch_size eps T z x
        = ((chunks (min batch_size x.length) x).enum.map
            (fun p => annealed_spec model eps T sigmas (z p.1) p.2)).flatten := by
  have hbs' : 1 ≤ min batch_size x.length := le_min hbs hn
  refine ⟨chunks_map_length _ hbs' x, ?_, ?_⟩
  · unfold sample_many
    rw [show (chunks (min batch_size x.length) x).enum
        = List.enumFrom 0 (chunks (min batch_size x.length) x) from rfl]
    rw [length_sample_chunks model eps T (sigmas.getLastD 0) sigmas.enum z hm
      (chunks (min batch_size x.length) x) 0
      (fun j i t => by have := hz j i t; simpa using this)]
    rw [chunks_flatten _ hbs' x]
  · unfold sample_many
    congr 1
    apply List.map_congr_left
    intro p _
    exact levels_eq_annealed_spec model sigmas eps T (z p.1) p.2

/-- Witness for C10 at a concrete input: three 1×1×1 images, batch size 2,
identity model, noise draws shaped like the sub-batches. -/
theorem C10_sub_batching_witness :
    1 ≤ batch3.length
    ∧ (((chunks (min 2 batch3.length) batch3).map List.length
          = List.replicate (batch3.length / min 2 batch3.length)
              (min 2 batch3.length)
            ++ (if batch3.length % min 2 batch3.length = 0 then []
                else [batch3.length % min 2 batch3.length]))
        ∧ (sample_many idModel [1] 2 1 1 zChunks3 batch3).length = batch3.length
        ∧ sample_many idModel [1] 2 1 1 zChunks3 batch3
            = ((chunks (min 2 batch3.length) batch3).enum.map
                (fun p => annealed_spec idModel 1 1 [1] (zChunks3 p.1) p.2)).flatten) :=
  ⟨by simp [batch3],
    C10_sub_batching idModel [1] 2 1 1 zChunks3 batch3
      (by simp [batch3]) (by omega) (fun _ _ => rfl) (fun _ _ _ => rfl)⟩

/-- Claim C8: `sample_one_step` is a deterministic function of the model, the
state `x`, the index tensor, the step size and the noise draw `z`: two runs
with identical inputs produce identical outputs. -/
theorem C8_sample_one_step_deterministic {H W C : ℕ}
    (model₁ model₂ : ScoreModel H W C) (x₁ x₂ : Batch H W C)
    (idx₁ idx₂ : List ℤ) (a₁ a₂ : ℝ) (z₁ z₂ : Batch H W C)
    (hm : model₁ = model₂) (hx : x₁ = x₂) (hi : idx₁ = idx₂)
    (ha : a₁ = a₂) (hz : z₁ = z₂) :
    sample_one_step model₁ x₁ idx₁ a₁ z₁ = sample_one_step model₂ x₂ idx₂ a₂ z₂ := by
  rw [hm, hx, hi, ha, hz]

/-- Witness for C8 at a concrete input. -/
theorem C8_sample_one_step_deterministic_witness :
    sample_one_step (fun b _ => b : ScoreModel 1 1 1) [imgDefault] [] 1 [imgDefault]
      = sample_one_step (fun b _ => b) [imgDefault] [] 1 [imgDefault] :=
  C8_sample_one_step_deterministic _ _ _ _ _ _ _ _ _ _ rfl rfl rfl rfl rfl

/-- Counterexample for C4: the save path does not clip values to [0, 1]
before rescaling.  At the value -1 the code's pipeline
(`_preprocess_image_to_save` applied directly) gives 0, while clipping to
[0, 1] first and then rescaling would give 0.5. -/
theorem C4_no_unit_clip_counterexample :
    preprocess_image_to_save (-1) ≠ preprocess_image_to_save (clamped (-1)) := by
  unfold preprocess_image_to_save clamped
  norm_num

/-- Amended claim C4: for `n_images = 1` the sampler returns a single-row
tensor of shape (1, H, W, C), and the save path rescales by `x * 255 + 0.5`
and clips to [0, 255] after rescaling (its output always lies in [0, 255]);
no [0, 1] clipping happens before the rescale (the `clamped` helper is
unused). -/
theorem C4_single_image_shape_and_save_range {H W C : ℕ}
    (model : ScoreModel H W C) (sigmas : List ℝ) (eps : ℝ) (T : ℕ)
    (z : ℕ → ℕ → Batch H W C) (x : Batch H W C)
    (hm : ∀ b i, (model b i).length = b.length)
    (hz : ∀ i t, (z i t).length = 1) (hx : x.length = 1) :
    (sample_and_save_loop model sigmas eps T z x).length = 1
    ∧ (∀ v : ℝ, 0 ≤ preprocess_image_to_save v ∧ preprocess_image_to_save v ≤ 255) := by
  constructor
  · exact length_sample_levels model eps T (sigmas.getLastD 0) z 1 hm hz
      sigmas.enum x hx
  · intro v
    unfold preprocess_image_to_save
    constructor
    · exact le_min (le_max_right _ _) (by norm_num)
    · exact min_le_right _ _

/-- Witness for the amended C4 at a concrete input. -/
theorem C4_single_image_shape_and_save_range_witness :
    (sample_and_save_loop idModel [1] 2 1 (fun _ _ => [imgDefault])
        [imgDefault]).length = 1
    ∧ (∀ v : ℝ, 0 ≤ preprocess_image_to_save v ∧ preprocess_image_to_save v ≤ 255) :=
  C4_single_image_shape_and_save_range idModel [1] 2 1 (fun _ _ => [imgDefault])
    [imgDefault] (fun _ _ => rfl) (fun _ _ => rfl) rfl

/-- Counterexample for C7: `ssm_loss` does not compute the sliced
score-matching objective with dot-product projections along `v`; at
`scores = 0`, `data_grads = [[0,1],[0,0]]`, `v = [[0,1],[0,0]]` the code
returns 0 while the dot-product objective is 0.5. -/
theorem C7_not_dot_product_counterexample :
    ssm_loss (fun _ _ => (0 : ℝ)) ![![0, 1], ![0, 0]] ![![0, 1], ![0, 0]]
      ≠ ssm_loss_dot (fun _ _ => (0 : ℝ)) ![![0, 1], ![0, 0]] ![![0, 1], ![0, 0]] := by
  unfold ssm_loss ssm_loss_dot
  simp only [Fin.sum_univ_two]
  norm_num

/-- Amended claim C7: given scores, data gradients and the standard-normal
draw `v` of the same (square) shape, `ssm_loss` returns the mean over all
entries of `transpose(v) ⊙ data_grads ⊙ v + 0.5 · (transpose(v) ⊙ scores)²`
with elementwise products, i.e. the sum of a transposed-weighted gradient term
and half the sum of squared products, divided by the number of entries; this
is not the dot-product sliced score-matching objective. -/
theorem C7_elementwise_structure {n : ℕ}
    (scores data_grads v : Fin n → Fin n → ℝ) :
    ssm_loss scores data_grads v
      = ((∑ i, ∑ j, v j i * data_grads i j * v i j)
          + 0.5 * ∑ i, ∑ j, (v j i * scores i j) ^ 2) / ((n : ℝ) * (n : ℝ)) := by
  unfold ssm_loss
  congr 1
  simp only [Finset.sum_add_distrib, ← Finset.mul_sum]

theorem loss_per_batch_eq_sum {B H W C : ℕ} (num_L : ℕ)
    (score x_perturbed x : Fin B → Img H W C) (sigmas : Fin B → ℝ) :
    loss_per_batch num_L score x_perturbed x sigmas
      = 0.5 * ((∑ b, ∑ c, ∑ h, ∑ w,
            (sigmas b * score b h w c
              + (x_perturbed b h w c - x b h w c) / sigmas b) ^ 2) / (B : ℝ))
          / (num_L : ℝ) := by
  unfold loss_per_batch
  dsimp only
  congr 1
  congr 1
  congr 1
  refine Finset.sum_congr rfl fun b _ => ?_
  rw [Real.sq_sqrt (Finset.sum_nonneg fun c _ => sq_nonneg _)]
  refine Finset.sum_congr rfl fun c _ => ?_
  exact Real.sq_sqrt
    (Finset.sum_nonneg fun h _ => Finset.sum_nonneg fun w _ => sq_nonneg _)

/-- Claim C5: `loss_per_batch` — the norm over the spatial dimensions of
`sigma * score + (x_perturbed - x) / sigma`, then the norm of that result over
the channel dimension, squared, averaged over the batch, times 0.5, divided by
`num_L` — returns the single scalar
`0.5 * (mean over the batch of the sum over (C, H, W) of the squared
residual) / num_L`. -/
theorem C5_loss_per_batch_value {B H W C : ℕ} (num_L : ℕ)
    (score x_perturbed x : Fin B → Img H W C) (sigmas : Fin B → ℝ) :
    loss_per_batch num_L score x_perturbed x sigmas
      = 0.5 * ((∑ b, ∑ c, ∑ h, ∑ w,
            (sigmas b * score b h w c
              + (x_perturbed b h w c - x b h w c) / sigmas b) ^ 2) / (B : ℝ))
          / (num_L : ℝ) :=
  loss_per_batch_eq_sum num_L score x_perturbed x sigmas

/-- Claim C6: for positive per-example sigmas and `num_L ≥ 1`,
`loss_per_batch` is non-negative, and it is zero exactly when
`score = (x - x_perturbed) / sigma²` holds at every entry of every example. -/
theorem C6_loss_nonneg_zero_iff {B H W C : ℕ} (num_L : ℕ)
    (score x_perturbed x : Fin B → Img H W C) (sigmas : Fin B → ℝ)
    (hL : 0 < num_L) (hsig : ∀ b, 0 < sigmas b) :
    0 ≤ loss_per_batch num_L score x_perturbed x sigmas
    ∧ (loss_per_batch num_L score x_perturbed x sigmas = 0
        ↔ ∀ (b : Fin B) (h : Fin H) (w : Fin W) (c : Fin C),
            score b h w c = (x b h w c - x_perturbed b h w c) / sigmas b ^ 2) := by
  rw [loss_per_batch_eq_sum]
  have hS : (0 : ℝ) ≤ ∑ b, ∑ c, ∑ h, ∑ w,
      (sigmas b * score b h w c
        + (x_perturbed b h w c - x b h w c) / sigmas b) ^ 2 :=
    Finset.sum_nonneg fun b _ => Finset.sum_nonneg fun c _ =>
      Finset.sum_nonneg fun h _ => Finset.sum_nonneg fun w _ => sq_nonneg _
  constructor
  · positivity
  · have hzero : (0.5 * ((∑ b, ∑ c, ∑ h, ∑ w,
          (sigmas b * score b h w c
            + (x_perturbed b h w c - x b h w c) / sigmas b) ^ 2) / (B : ℝ))
            / (num_L : ℝ) = 0)
        ↔ (∑ b, ∑ c, ∑ h, ∑ w,
            (sigmas b * score b h w c
              + (x_perturbed b h w c - x b h w c) / sigmas b) ^ 2) = 0 := by
      by_cases hB : B = 0
      · subst hB
        simp
      · have hBne : (B : ℝ) ≠ 0 := Nat.cast_ne_zero.mpr hB
        have hLne : (num_L : ℝ) ≠ 0 := Nat.cast_ne_zero.mpr hL.ne'
        constructor
        · intro h0
          rcases div_eq_zero_iff.mp h0 with h1 | h1
          · rcases mul_eq_zero.mp h1 with h2 | h2
            · norm_num at h2
            · rcases div_eq_zero_iff.mp h2 with h3 | h3
              · exact h3
              · exact absurd h3 hBne
          · exact absurd h1 hLne
        · intro hS0
          rw [hS0]
          simp
    rw [hzero]
    have hterms : (∑ b, ∑ c, ∑ h, ∑ w,
          (sigmas b * score b h w c
            + (x_perturbed b h w c - x b h w c) / sigmas b) ^ 2) = 0
        ↔ ∀ (b : Fin B) (c : Fin C) (h : Fin H) (w : Fin W),
            sigmas b * score b h w c
              + (x_perturbed b h w c - x b h w c) / sigmas b = 0 := by
      constructor
      · intro h0 b c h w
        have h1 := (Finset.sum_eq_zero_iff_of_nonneg
          (fun b _ => Finset.sum_nonneg fun c _ => Finset.sum_nonneg fun h _ =>
            Finset.sum_nonneg fun w _ => sq_nonneg _)).mp h0 b (Finset.mem_univ b)
        have h2 := (Finset.sum_eq_zero_iff_of_nonneg
          (fun c _ => Finset.sum_nonneg fun h _ =>
            Finset.sum_nonneg fun w _ => sq_nonneg _)).mp h1 c (Finset.mem_univ c)
        have h3 := (Finset.sum_eq_zero_iff_of_nonneg
          (fun h _ => Finset.sum_nonneg fun w _ => sq_nonneg _)).mp h2 h
            (Finset.mem_univ h)
        have h4 := (Finset.sum_eq_zero_iff_of_nonneg
          (fun w _ => sq_nonneg _)).mp h3 w (Finset.mem_univ w)
        exact (pow_eq_zero_iff (by norm_num : 2 ≠ 0)).mp h4
      · intro hr
        refine Finset.sum_eq_zero fun b _ => Finset.sum_eq_zero fun c _ =>
          Finset.sum_eq_zero fun h _ => Finset.sum_eq_zero fun w _ => ?_
        rw [hr b c h w]
        norm_num
    rw [hterms]
    have halg : ∀ (b : Fin B) (h : Fin H) (w : Fin W) (c : Fin C),
        (sigmas b * score b h w c
            + (x_perturbed b h w c - x b h w c) / sigmas b = 0)
          ↔ score b h w c = (x b h w c - x_perturbed b h w c) / sigmas b ^ 2 := by
      intro b h w c
      have hs : sigmas b ≠ 0 := (hsig b).ne'
      have hrw : sigmas b * score b h w c
          + (x_perturbed b h w c - x b h w c) / sigmas b
          = (sigmas b ^ 2 * score b h w c
              + (x_perturbed b h w c - x b h w c)) / sigmas b := by
        field_simp
        ring
      rw [hrw, div_eq_zero_iff, or_iff_left hs,
        eq_div_iff (pow_ne_zero 2 hs)]
      constructor
      · intro h'
        linarith [h']
      · intro h'
        linarith [h']
    constructor
    · intro hall b h w c
      exact (halg b h w c).mp (hall b c h w)
    · intro hall b c h w
      exact (halg b h w c).mpr (hall b h w c)

/-- Witness for C6 at a concrete input: one 1×1×1 example, `num_L = 1`,
`sigma = 1`, all tensors zero. -/
theorem C6_loss_nonneg_zero_iff_witness :
    0 < 1
    ∧ ((0 : ℝ) < 1)
    ∧ (0 ≤ loss_per_batch 1 (fun _ => imgDefault : Fin 1 → Img 1 1 1)
          (fun _ => imgDefault) (fun _ => imgDefault) (fun _ => 1)
        ∧ (loss_per_batch 1 (fun _ => imgDefault : Fin 1 → Img 1 1 1)
              (fun _ => imgDefault) (fun _ => imgDefault) (fun _ => 1) = 0
            ↔ ∀ (_b : Fin 1) (h : Fin 1) (w : Fin 1) (c : Fin 1),
                imgDefault h w c
                  = (imgDefault h w c - imgDefault h w c) / (1 : ℝ) ^ 2)) :=
  ⟨by norm_num, by norm_num,
    C6_loss_nonneg_zero_iff 1 (fun _ => imgDefault) (fun _ => imgDefault)
      (fun _ => imgDefault) (fun _ => 1) (by norm_num) (fun _ => by norm_num)⟩

theorem sigma_levels_length (sigma_high sigma_low : ℝ) (L : ℕ) :
    (sigma_levels sigma_high sigma_low L).length = L := by
  unfold sigma_levels linspace
  split_ifs with h1
  · simp [h1]
  · rw [List.length_map, List.length_map, List.length_range]

theorem sigma_levels_getD (sigma_high sigma_low : ℝ) (L i : ℕ) (hi : i < L) :
    (sigma_levels sigma_high sigma_low L).getD i 0
      = Real.exp (Real.log sigma_high
          + (i : ℝ) * (Real.log sigma_low - Real.log sigma_high) / ((L : ℝ) - 1)) := by
  unfold sigma_levels linspace
  split_ifs with h1
  · have hi0 : i = 0 := by omega
    subst hi0
    subst h1
    simp
  · rw [List.getD_eq_getElem _ _
      (by rw [List.length_map, List.length_map, List.length_range]; exact hi)]
    simp only [List.getElem_map, List.getElem_range]

/-- Claim C3: for `sigma_high > sigma_low > 0` and `num_L ≥ 1`, the schedule
has exactly `num_L` elements, element `i` equals
`exp(log sigma_high + (i/(L-1)) * (log sigma_low - log sigma_high))`, the
schedule is strictly decreasing, its first element is `sigma_high`, for
`num_L ≥ 2` its last element is `sigma_low`, and for `num_L = 1` it is the
single value `sigma_high`. -/
theorem C3_sigma_levels_schedule (sigma_high sigma_low : ℝ) (L : ℕ)
    (hlow : 0 < sigma_low) (hlt : sigma_low < sigma_high) (hL : 1 ≤ L) :
    (sigma_levels sigma_high sigma_low L).length = L
    ∧ (∀ i, i < L → (sigma_levels sigma_high sigma_low L).getD i 0
        = Real.exp (Real.log sigma_high
            + ((i : ℝ) / ((L : ℝ) - 1))
              * (Real.log sigma_low - Real.log sigma_high)))
    ∧ List.Chain' (fun a b => b < a) (sigma_levels sigma_high sigma_low L)
    ∧ (sigma_levels sigma_high sigma_low L).getD 0 0 = sigma_high
    ∧ (2 ≤ L →
        (sigma_levels sigma_high sigma_low L).getD (L - 1) 0 = sigma_low)
    ∧ (L = 1 → sigma_levels sigma_high sigma_low L = [sigma_high]) := by
  have hhigh : 0 < sigma_high := hlow.trans hlt
  have hlog : Real.log sigma_low < Real.log sigma_high := Real.log_lt_log hlow hlt
  refine ⟨sigma_levels_length _ _ _, ?_, ?_, ?_, ?_, ?_⟩
  · intro i hi
    rw [sigma_levels_getD _ _ _ i hi]
    congr 1
    ring
  · rcases eq_or_lt_of_le hL with h1 | h2
    · have : sigma_levels sigma_high sigma_low L
          = [Real.exp (Real.log sigma_high)] := by
        unfold sigma_levels linspace
        rw [if_pos h1.symm]
        rfl
      rw [this]
      exact List.chain'_singleton _
    · have hc : (0 : ℝ) < (L : ℝ) - 1 := by
        have : (1 : ℝ) < (L : ℝ) := by exact_mod_cast h2
        linarith
      have hd : (Real.log sigma_low - Real.log sigma_high) / ((L : ℝ) - 1) < 0 :=
        div_neg_of_neg_of_pos (by linarith) hc
      rw [List.chain'_iff_get]
      intro i hilen
      rw [List.get_eq_getElem, List.get_eq_getElem,
        ← List.getD_eq_getElem _ 0, ← List.getD_eq_getElem _ 0]
      rw [sigma_levels_length] at hilen
      rw [sigma_levels_getD _ _ _ i (by omega),
        sigma_levels_getD _ _ _ (i + 1) (by omega)]
      apply Real.exp_lt_exp.mpr
      apply add_lt_add_left
      rw [mul_div_assoc, mul_div_assoc]
      push_cast
      have hstep : (i : ℝ) < (i : ℝ) + 1 := by linarith
      exact mul_lt_mul_of_neg_right hstep hd
  · rw [sigma_levels_getD _ _ _ 0 (by omega)]
    simp [Real.exp_log hhigh]
  · intro h2
    rw [sigma_levels_getD _ _ _ (L - 1) (by omega)]
    have hne : ((L : ℝ) - 1) ≠ 0 := by
      have : (1 : ℝ) < (L : ℝ) := by exact_mod_cast h2
      linarith
    rw [Nat.cast_sub hL, Nat.cast_one, mul_div_cancel_left₀ _ hne]
    rw [show Real.log sigma_high
        + (Real.log sigma_low - Real.log sigma_high) = Real.log sigma_low by ring]
    exact Real.exp_log hlow
  · intro h1
    subst h1
    unfold sigma_levels linspace
    simp [Real.exp_log hhigh]

/-- Witness for C3 at a concrete input: `sigma_high = 2`, `sigma_low = 1`,
`num_L = 2`. -/
theorem C3_sigma_levels_schedule_witness :
    (0 : ℝ) < 1
    ∧ ((1 : ℝ) < 2)
    ∧ ((sigma_levels 2 1 2).length = 2
        ∧ (∀ i, i < 2 → (sigma_levels 2 1 2).getD i 0
            = Real.exp (Real.log 2
                + ((i : ℝ) / ((2 : ℝ) - 1)) * (Real.log 1 - Real.log 2)))
        ∧ List.Chain' (fun a b => b < a) (sigma_levels 2 1 2)
        ∧ (sigma_levels 2 1 2).getD 0 0 = 2
        ∧ (2 ≤ 2 → (sigma_levels 2 1 2).getD (2 - 1) 0 = 1)
        ∧ (2 = 1 → sigma_levels 2 1 2 = [2])) :=
  ⟨by norm_num, by norm_num,
    C3_sigma_levels_schedule 2 1 2 (by norm_num) (by norm_num) (by norm_num)⟩

end NCSN
